import Mathlib

/-!
Verification of mcrouter's `src/mcrouter/lib/fbi/hash.c` (FurcHash, MurmurHash64A,
CRC32) via a shallow embedding.  Machine integers are modelled as `Nat` with
explicit reduction `% 2^64` (resp. `% 2^32`) exactly where the C code's fixed
width matters; byte reads from memory are modelled by `% 256` (a `uint8_t`
load), with 64-bit words assembled little-endian as on the platforms the code
targets.  Keys are modelled as `List Nat` of bytes; the C `len` argument is the
length of that list.
-/

/-- Seed constant for MurmurHash64A (`#define SEED 4193360111ul` in hash.c). -/
def SEED : Nat := 4193360111

/-- Modelled from the spec: `FURC_SHIFT` lives in `hash.h`, which is not part of
the sources here.  The spec fixes `MaxPoolSize = 2^SHIFT` with "a pool limit in
the low millions", and hash.c's header comment says the pool bound is
"8 million or less (2^FURC_SHIFT)", i.e. `FURC_SHIFT = 23`. -/
def FURC_SHIFT : Nat := 23

/-- Modelled from the spec: `FURC_MAX_TRIES` lives in the missing `hash.h`; the
spec only requires a fixed retry bound (`MAX_TRIES`); mcrouter uses 32. -/
def FURC_MAX_TRIES : Nat := 32

/-- `furc_maximum_pool_size`: `return (1 << FURC_SHIFT);` -/
def furc_maximum_pool_size : Nat := 2 ^ FURC_SHIFT

/-- The MurmurHash64A multiplier `m = 0xc6a4a7935bd1e995ULL`. -/
def murmurM : Nat := 0xc6a4a7935bd1e995

/-- Little-endian value of a byte list; each entry is read as a `uint8_t`
(hence the `% 256`).  An 8-byte prefix read this way is the C code's
`uint64_t` word load `*data`. -/
def leWord : List Nat → Nat
  | [] => 0
  | b :: bs => b % 256 + 256 * leWord bs

/-- The main word loop of `murmur_hash_64A`: consume 8 bytes at a time,
`k *= m; k ^= k >> r; k *= m; h ^= k; h *= m;`, returning the accumulator
together with the remaining (< 8 byte) tail. -/
def murmurLoop (h : Nat) : List Nat → Nat × List Nat
  | b0 :: b1 :: b2 :: b3 :: b4 :: b5 :: b6 :: b7 :: rest =>
      let k := leWord [b0, b1, b2, b3, b4, b5, b6, b7]
      let k := k * murmurM % 2 ^ 64
      let k := k ^^^ (k >>> 47)
      let k := k * murmurM % 2 ^ 64
      murmurLoop ((h ^^^ k) * murmurM % 2 ^ 64) rest
  | bs => (h, bs)

/-- `murmur_hash_64A(key, len, seed)` from hash.c.  `h = seed ^ (len*m)`; the
word loop; the tail `switch` (which XORs the at most 7 trailing bytes in
little-endian byte positions and multiplies by `m` only when the tail is
nonempty); and the two final mix rounds. -/
def murmur_hash_64A (key : List Nat) (seed : Nat) : Nat :=
  let h := seed ^^^ (key.length * murmurM % 2 ^ 64)
  let p := murmurLoop h key
  let h := match p.2 with
    | [] => p.1
    | _ => (p.1 ^^^ leWord p.2) * murmurM % 2 ^ 64
  let h := h ^^^ (h >>> 47)
  let h := h * murmurM % 2 ^ 64
  h ^^^ (h >>> 47)

/-- `murmur_rehash_64A(k)` from hash.c: MurmurHash64A specialised to an 8-byte
input equal to the prior 64-bit value, with seed `SEED`. -/
def murmur_rehash_64A (k : Nat) : Nat :=
  let h := SEED ^^^ (8 * murmurM % 2 ^ 64)
  let k := k * murmurM % 2 ^ 64
  let k := k ^^^ (k >>> 47)
  let k := k * murmurM % 2 ^ 64
  let h := (h ^^^ k) * murmurM % 2 ^ 64
  let h := h ^^^ (h >>> 47)
  let h := h * murmurM % 2 ^ 64
  h ^^^ (h >>> 47)

/-- The 8 little-endian bytes of a 64-bit value (the in-memory representation
of a `uint64_t` on the little-endian platforms the code targets). -/
def leBytesOfU64 (k : Nat) : List Nat :=
  [k % 256, k / 256 % 256, k / 65536 % 256, k / 16777216 % 256,
   k / 4294967296 % 256, k / 1099511627776 % 256,
   k / 281474976710656 % 256, k / 72057594037927936 % 256]

theorem leWord_leBytesOfU64 (k : Nat) (hk : k < 2 ^ 64) :
    leWord (leBytesOfU64 k) = k := by
  have hk' : k < 18446744073709551616 := by omega
  simp only [leBytesOfU64, leWord]
  omega

/-- C4: the specialized rehasher equals the general mixer applied to the
8-byte (little-endian) representation of its argument with seed `SEED`:
`murmur_rehash_64A(k) = murmur_hash_64A(bytes_of(k), 8, SEED)`. -/
theorem murmur_rehash_eq_hash_of_bytes (k : Nat) (hk : k < 2 ^ 64) :
    murmur_rehash_64A k = murmur_hash_64A (leBytesOfU64 k) SEED := by
  have hle := leWord_leBytesOfU64 k hk
  simp only [leBytesOfU64] at hle
  simp only [murmur_rehash_64A, murmur_hash_64A, leBytesOfU64, murmurLoop, hle,
    List.length_cons, List.length_nil]

/-- Witness for C4 at a concrete 64-bit input. -/
theorem murmur_rehash_eq_hash_of_bytes_witness :
    12345678901234567890 < 2 ^ 64 ∧
      murmur_rehash_64A 12345678901234567890 =
        murmur_hash_64A (leBytesOfU64 12345678901234567890) SEED :=
  ⟨by decide, murmur_rehash_eq_hash_of_bytes 12345678901234567890 (by decide)⟩

/-- The 256-entry CRC-32 lookup table `crc32tab` from hash.c (reflected
polynomial, ISO-HDLC/zlib variant), as constant data. -/
def crc32tab : List Nat :=
  [0x00000000, 0x77073096, 0xee0e612c, 0x990951ba, 0x076dc419, 0x706af48f, 0xe963a535, 0x9e6495a3,
   0x0edb8832, 0x79dcb8a4, 0xe0d5e91e, 0x97d2d988, 0x09b64c2b, 0x7eb17cbd, 0xe7b82d07, 0x90bf1d91,
   0x1db71064, 0x6ab020f2, 0xf3b97148, 0x84be41de, 0x1adad47d, 0x6ddde4eb, 0xf4d4b551, 0x83d385c7,
   0x136c9856, 0x646ba8c0, 0xfd62f97a, 0x8a65c9ec, 0x14015c4f, 0x63066cd9, 0xfa0f3d63, 0x8d080df5,
   0x3b6e20c8, 0x4c69105e, 0xd56041e4, 0xa2677172, 0x3c03e4d1, 0x4b04d447, 0xd20d85fd, 0xa50ab56b,
   0x35b5a8fa, 0x42b2986c, 0xdbbbc9d6, 0xacbcf940, 0x32d86ce3, 0x45df5c75, 0xdcd60dcf, 0xabd13d59,
   0x26d930ac, 0x51de003a, 0xc8d75180, 0xbfd06116, 0x21b4f4b5, 0x56b3c423, 0xcfba9599, 0xb8bda50f,
   0x2802b89e, 0x5f058808, 0xc60cd9b2, 0xb10be924, 0x2f6f7c87, 0x58684c11, 0xc1611dab, 0xb6662d3d,
   0x76dc4190, 0x01db7106, 0x98d220bc, 0xefd5102a, 0x71b18589, 0x06b6b51f, 0x9fbfe4a5, 0xe8b8d433,
   0x7807c9a2, 0x0f00f934, 0x9609a88e, 0xe10e9818, 0x7f6a0dbb, 0x086d3d2d, 0x91646c97, 0xe6635c01,
   0x6b6b51f4, 0x1c6c6162, 0x856530d8, 0xf262004e, 0x6c0695ed, 0x1b01a57b, 0x8208f4c1, 0xf50fc457,
   0x65b0d9c6, 0x12b7e950, 0x8bbeb8ea, 0xfcb9887c, 0x62dd1ddf, 0x15da2d49, 0x8cd37cf3, 0xfbd44c65,
   0x4db26158, 0x3ab551ce, 0xa3bc0074, 0xd4bb30e2, 0x4adfa541, 0x3dd895d7, 0xa4d1c46d, 0xd3d6f4fb,
   0x4369e96a, 0x346ed9fc, 0xad678846, 0xda60b8d0, 0x44042d73, 0x33031de5, 0xaa0a4c5f, 0xdd0d7cc9,
   0x5005713c, 0x270241aa, 0xbe0b1010, 0xc90c2086, 0x5768b525, 0x206f85b3, 0xb966d409, 0xce61e49f,
   0x5edef90e, 0x29d9c998, 0xb0d09822, 0xc7d7a8b4, 0x59b33d17, 0x2eb40d81, 0xb7bd5c3b, 0xc0ba6cad,
   0xedb88320, 0x9abfb3b6, 0x03b6e20c, 0x74b1d29a, 0xead54739, 0x9dd277af, 0x04db2615, 0x73dc1683,
   0xe3630b12, 0x94643b84, 0x0d6d6a3e, 0x7a6a5aa8, 0xe40ecf0b, 0x9309ff9d, 0x0a00ae27, 0x7d079eb1,
   0xf00f9344, 0x8708a3d2, 0x1e01f268, 0x6906c2fe, 0xf762575d, 0x806567cb, 0x196c3671, 0x6e6b06e7,
   0xfed41b76, 0x89d32be0, 0x10da7a5a, 0x67dd4acc, 0xf9b9df6f, 0x8ebeeff9, 0x17b7be43, 0x60b08ed5,
   0xd6d6a3e8, 0xa1d1937e, 0x38d8c2c4, 0x4fdff252, 0xd1bb67f1, 0xa6bc5767, 0x3fb506dd, 0x48b2364b,
   0xd80d2bda, 0xaf0a1b4c, 0x36034af6, 0x41047a60, 0xdf60efc3, 0xa867df55, 0x316e8eef, 0x4669be79,
   0xcb61b38c, 0xbc66831a, 0x256fd2a0, 0x5268e236, 0xcc0c7795, 0xbb0b4703, 0x220216b9, 0x5505262f,
   0xc5ba3bbe, 0xb2bd0b28, 0x2bb45a92, 0x5cb36a04, 0xc2d7ffa7, 0xb5d0cf31, 0x2cd99e8b, 0x5bdeae1d,
   0x9b64c2b0, 0xec63f226, 0x756aa39c, 0x026d930a, 0x9c0906a9, 0xeb0e363f, 0x72076785, 0x05005713,
   0x95bf4a82, 0xe2b87a14, 0x7bb12bae, 0x0cb61b38, 0x92d28e9b, 0xe5d5be0d, 0x7cdcefb7, 0x0bdbdf21,
   0x86d3d2d4, 0xf1d4e242, 0x68ddb3f8, 0x1fda836e, 0x81be16cd, 0xf6b9265b, 0x6fb077e1, 0x18b74777,
   0x88085ae6, 0xff0f6a70, 0x66063bca, 0x11010b5c, 0x8f659eff, 0xf862ae69, 0x616bffd3, 0x166ccf45,
   0xa00ae278, 0xd70dd2ee, 0x4e048354, 0x3903b3c2, 0xa7672661, 0xd06016f7, 0x4969474d, 0x3e6e77db,
   0xaed16a4a, 0xd9d65adc, 0x40df0b66, 0x37d83bf0, 0xa9bcae53, 0xdebb9ec5, 0x47b2cf7f, 0x30b5ffe9,
   0xbdbdf21c, 0xcabac28a, 0x53b39330, 0x24b4a3a6, 0xbad03605, 0xcdd70693, 0x54de5729, 0x23d967bf,
   0xb3667a2e, 0xc4614ab8, 0x5d681b02, 0x2a6f2b94, 0xb40bbe37, 0xc30c8ea1, 0x5a05df1b, 0x2d02ef8d]

/-- `crc32_hash(key, len)` from hash.c: accumulator starts at `~0`, each byte
does `crc = (crc >> 8) ^ crc32tab[(crc ^ key[i]) & 0xff]`, and the result is
the bitwise complement `~crc` (complement in 32 bits, since the accumulator
always stays below `2^32`). -/
def crc32_hash (key : List Nat) : Nat :=
  let crc := key.foldl
    (fun crc b => (crc >>> 8) ^^^ (crc32tab.getD ((crc ^^^ b % 256) % 256) 0))
    0xffffffff
  crc ^^^ 0xffffffff

/-- C9: CRC-32 reference vectors: the empty input hashes to 0 and
"123456789" (bytes 49..57) hashes to 0xCBF43926. -/
theorem crc32_hash_vectors :
    crc32_hash [] = 0x00000000 ∧
      crc32_hash [49, 50, 51, 52, 53, 54, 55, 56, 57] = 0xCBF43926 := by
  constructor
  · decide
  · decide

/-! ## The bit-stream generator `furc_get_bit` and its cache -/

/-- The caller-owned scratch state of `furc_get_bit`: the block cache
(`uint64_t* hash`, modelled as a total map from ordinals to stored values)
and the highest-computed-ordinal marker (`int32_t old_ord`, sentinel `-1`). -/
structure FurcState where
  hash : Nat → Nat
  old_ord : Int

/-- The mathematical per-key pseudorandom stream of 64-bit blocks:
block 0 is `murmur_hash_64A(key, len, SEED)`, block `n+1` is
`murmur_rehash_64A` of block `n`. -/
def furc_block (key : List Nat) : Nat → Nat
  | 0 => murmur_hash_64A key SEED
  | n + 1 => murmur_rehash_64A (furc_block key n)

/-- The per-key stream bit at index `idx`: bit `idx mod 64` of block
`idx / 64`. -/
def furc_stream_bit (key : List Nat) (idx : Nat) : Nat :=
  furc_block key (idx >>> 6) >>> (idx % 64) &&& 1

/-- The fill loop of `furc_get_bit`:
`for (n = *old_ord_p + 1; n <= ord; n++) hash[n] = (n == 0) ? murmur... : rehash(hash[n-1]);`
modelled with an explicit iteration count (`steps` = number of remaining
assignments, `n` = next ordinal to fill). -/
def fillLoop (key : List Nat) (h : Nat → Nat) : Nat → Nat → Nat → Nat
  | _, 0 => h
  | n, steps + 1 =>
      let v := if n = 0 then murmur_hash_64A key SEED else murmur_rehash_64A (h (n - 1))
      fillLoop key (fun i => if i = n then v else h i) (n + 1) steps

/-- `furc_get_bit(key, len, idx, hash, old_ord_p)` from hash.c.  A `NULL` key
(modelled by `none`) resets the marker to `-1` and returns 0; otherwise, if the
requested ordinal `idx >> 6` is beyond the marker, the fill loop extends the
cache up to it and the marker is advanced; the returned bit is
`(hash[ord] >> (idx & 0x3f)) & 0x1`. -/
def furc_get_bit (key : Option (List Nat)) (idx : Nat) (s : FurcState) :
    Nat × FurcState :=
  match key with
  | none => (0, { s with old_ord := -1 })
  | some k =>
      let ord : Nat := idx >>> 6
      if s.old_ord < (ord : Int) then
        let start : Nat := (s.old_ord + 1).toNat
        let h := fillLoop k s.hash start (ord + 1 - start)
        (h ord >>> (idx % 64) &&& 1, { hash := h, old_ord := (ord : Int) })
      else
        (s.hash ord >>> (idx % 64) &&& 1, s)

/-- The cache invariant: every ordinal at or below the marker holds the
correct stream block. -/
def FurcInv (key : List Nat) (s : FurcState) : Prop :=
  ∀ n : Nat, (n : Int) ≤ s.old_ord → s.hash n = furc_block key n

theorem fillLoop_spec (key : List Nat) :
    ∀ (steps start : Nat) (h : Nat → Nat),
      (∀ n, n < start → h n = furc_block key n) →
      ∀ n, n < start + steps → fillLoop key h start steps n = furc_block key n := by
  intro steps
  induction steps with
  | zero => intro start h hpre n hn; exact hpre n (by omega)
  | succ k ih =>
      intro start h hpre n hn
      rw [fillLoop]
      refine ih (start + 1) _ ?_ n (by omega)
      intro j hj
      by_cases hjs : j = start
      · subst hjs
        simp only [if_pos rfl]
        cases j with
        | zero => simp [furc_block]
        | succ i =>
            simp only [Nat.succ_ne_zero, if_neg, Nat.add_sub_cancel]
            rw [hpre i (by omega)]
            rfl
      · simp only [if_neg hjs]
        exact hpre j (by omega)

theorem furc_get_bit_spec (key : List Nat) (idx : Nat) (s : FurcState)
    (hs : FurcInv key s) :
    (furc_get_bit (some key) idx s).1 = furc_stream_bit key idx ∧
      FurcInv key (furc_get_bit (some key) idx s).2 := by
  unfold furc_get_bit furc_stream_bit
  set ord : Nat := idx >>> 6 with hord
  by_cases hlt : s.old_ord < (ord : Int)
  · simp only [if_pos hlt]
    have hfill := fillLoop_spec key (ord + 1 - (s.old_ord + 1).toNat)
      (s.old_ord + 1).toNat s.hash ?_
    · have hstart : (s.old_ord + 1).toNat ≤ ord := by omega
      constructor
      · rw [hfill ord (by omega)]
      · intro n hn
        simp only at hn
        exact hfill n (by omega)
    · intro n hn
      exact hs n (by omega)
  · simp only [if_neg hlt]
    exact ⟨by rw [hs ord (by omega)], hs⟩

/-- Running a list of bit-index requests through `furc_get_bit`,
threading the cache state, returning the list of produced bits. -/
def runBits (key : List Nat) (s : FurcState) : List Nat → List Nat
  | [] => []
  | i :: is =>
      let p := furc_get_bit (some key) i s
      p.1 :: runBits key p.2 is

theorem runBits_spec (key : List Nat) :
    ∀ (idxs : List Nat) (s : FurcState), FurcInv key s →
      runBits key s idxs = idxs.map (furc_stream_bit key) := by
  intro idxs
  induction idxs with
  | nil => intro s _; rfl
  | cons i is ih =>
      intro s hs
      have h := furc_get_bit_spec key i s hs
      simp only [runBits, List.map_cons, h.1, ih _ h.2]

theorem furc_reset_inv (key : List Nat) (idx : Nat) (s : FurcState) :
    FurcInv key (furc_get_bit none idx s).2 := by
  intro n hn
  simp only [furc_get_bit] at hn
  omega

/-- C10: after a reset (a `NULL`-key call), `furc_get_bit` returns the correct
stream bit for ANY sequence of bit-index requests — no monotonicity of the
requested indices is needed: the cache invariant makes the result
order-independent. -/
theorem furc_get_bit_any_order (key : List Nat) (idx0 : Nat) (s : FurcState)
    (idxs : List Nat) :
    runBits key (furc_get_bit none idx0 s).2 idxs =
      idxs.map (furc_stream_bit key) :=
  runBits_spec key idxs _ (furc_reset_inv key idx0 s)

/-- C2: after a reset, for any non-decreasing sequence of bit-index requests,
`furc_get_bit` returns bit `idx mod 64` of block `idx / 64` of the per-key
stream (block 0 = `murmur_hash_64A(key, len, SEED)`, block n+1 =
`murmur_rehash_64A` of block n). -/
theorem furc_get_bit_stream (key : List Nat) (idx0 : Nat) (s : FurcState)
    (idxs : List Nat) (hmono : idxs.Chain' (· ≤ ·)) :
    runBits key (furc_get_bit none idx0 s).2 idxs =
      idxs.map (furc_stream_bit key) :=
  runBits_spec key idxs _ (furc_reset_inv key idx0 s)

/-- Witness for C2 on a concrete key, a concrete non-decreasing request
sequence spanning two blocks, and a dirty initial cache. -/
theorem furc_get_bit_stream_witness :
    List.Chain' (· ≤ ·) [0, 1, 63, 64, 100] ∧
      runBits [97, 98] (furc_get_bit none 0 ⟨fun _ => 77, 5⟩).2 [0, 1, 63, 64, 100] =
        [0, 1, 63, 64, 100].map (furc_stream_bit [97, 98]) :=
  ⟨by simp [List.chain'_cons], furc_get_bit_stream [97, 98] 0 ⟨fun _ => 77, 5⟩ _
    (by simp [List.chain'_cons])⟩

/-! ## The decision-tree walk `furc_hash_array` -/

/-- The depth loop `for (d = 0; m > (1ul << d); d++)`, started at `d`, written
with an explicit fuel so that it is structurally recursive (kernel-reducible);
`furc_depth` passes fuel `m`, which `furc_depth_pow` shows is always enough
for the loop to reach its exit condition. -/
def furc_depth_from (m : Nat) : Nat → Nat → Nat
  | 0, d => d
  | fuel + 1, d => if 2 ^ d < m then furc_depth_from m fuel (d + 1) else d

/-- The smallest `d` with `m ≤ 2^d` (the C depth loop started at 0). -/
def furc_depth (m : Nat) : Nat := furc_depth_from m m 0

theorem furc_depth_from_ge (m : Nat) :
    ∀ fuel d, d ≤ furc_depth_from m fuel d := by
  intro fuel
  induction fuel with
  | zero => intro d; exact Nat.le_refl d
  | succ f ih =>
      intro d
      rw [furc_depth_from]
      split
      · exact Nat.le_trans (by omega) (ih (d + 1))
      · exact Nat.le_refl d

theorem furc_depth_from_le (m k : Nat) (hk : m ≤ 2 ^ k) :
    ∀ fuel d, d ≤ k → furc_depth_from m fuel d ≤ k := by
  intro fuel
  induction fuel with
  | zero => intro d hd; exact hd
  | succ f ih =>
      intro d hd
      rw [furc_depth_from]
      split
      · rename_i h2
        refine ih (d + 1) ?_
        by_contra hdk
        have : k ≤ d := by omega
        have : (2 : Nat) ^ k ≤ 2 ^ d := Nat.pow_le_pow_right (by omega) this
        omega
      · exact hd

theorem furc_depth_from_pow (m : Nat) :
    ∀ fuel d, m ≤ 2 ^ (d + fuel) → m ≤ 2 ^ furc_depth_from m fuel d := by
  intro fuel
  induction fuel with
  | zero => intro d h; exact h
  | succ f ih =>
      intro d h
      rw [furc_depth_from]
      split
      · exact ih (d + 1) (by rw [show d + 1 + f = d + (f + 1) by omega]; exact h)
      · omega

/-- The fuel `m` given to the depth loop is always sufficient: the result
really satisfies the loop's postcondition `m ≤ 2^d`. -/
theorem furc_depth_pow (m : Nat) : m ≤ 2 ^ furc_depth m := by
  refine furc_depth_from_pow m m 0 ?_
  simpa using Nat.le_of_lt (Nat.lt_two_pow m)

theorem furc_depth_le (m k : Nat) (hk : m ≤ 2 ^ k) : furc_depth m ≤ k :=
  furc_depth_from_le m k hk m 0 (Nat.zero_le k)

theorem furc_depth_pos (m : Nat) (hm : 2 ≤ m) : 1 ≤ furc_depth m := by
  have h1 : furc_depth m = furc_depth_from m (m - 1) 1 := by
    rw [furc_depth]
    have hm' : ∃ f, m = f + 1 := ⟨m - 1, by omega⟩
    obtain ⟨f, rfl⟩ := hm'
    rw [furc_depth_from, if_pos (by simpa using hm)]
    norm_num
  rw [h1]
  exact furc_depth_from_ge m (m - 1) 1

/-- The descend-while-zero loop of `furc_hash_array`:
`while (!furc_get_bit(key, len, a, hash, &old_ord)) { if (--d == 0) return 0; a = d; }`.
Returns `none` when the depth counter hits 0 (the walk's `return 0`), and
otherwise the values of `d` and `a` at loop exit together with the cache state.
(The C `d` is a `uint32_t`; on every reachable call `d ≥ 1` holds, so the
`--d` never wraps and Nat subtraction is exact.) -/
def furc_descend (key : List Nat) : Nat → Nat → FurcState →
    Option (Nat × Nat × FurcState)
  | 0, a, s =>
      let p := furc_get_bit (some key) a s
      if p.1 ≠ 0 then some (0, a, p.2) else none
  | 1, a, s =>
      let p := furc_get_bit (some key) a s
      if p.1 ≠ 0 then some (1, a, p.2) else none
  | d + 2, a, s =>
      let p := furc_get_bit (some key) a s
      if p.1 ≠ 0 then some (d + 2, a, p.2)
      else furc_descend key (d + 1) (d + 1) p.2

/-- The loop-shaped unfolding of `furc_descend`, matching the C source
verbatim: read a bit at `a`; on 1 exit; otherwise `--d`, return 0 when the
counter hits 0, else continue at `a = d`.  (The `d = 0` equation is the
unreachable-by-contract case: the walk always calls with `d ≥ 1`.) -/
theorem furc_descend_unfold (key : List Nat) (d a : Nat) (s : FurcState) :
    furc_descend key d a s =
      (let p := furc_get_bit (some key) a s
       if p.1 ≠ 0 then some (d, a, p.2)
       else if d - 1 = 0 then none
       else furc_descend key (d - 1) (d - 1) p.2) := by
  match d with
  | 0 => rfl
  | 1 => rfl
  | d + 2 => rfl

/-- The candidate-build loop of `furc_hash_array`:
`for (i = 0; i < d-1; i++) { num = (num << 1) | furc_get_bit(...a...); a += FURC_SHIFT; }`
with `cnt` the remaining iteration count.  `num` is a `uint32_t`, hence the
`% 2^32` (never reached for in-contract pool sizes). -/
def furc_build (key : List Nat) : Nat → Nat → Nat → FurcState →
    Nat × Nat × FurcState
  | 0, a, num, s => (num, a, s)
  | cnt + 1, a, num, s =>
      let p := furc_get_bit (some key) a s
      furc_build key cnt (a + FURC_SHIFT) ((num <<< 1 ||| p.1) % 2 ^ 32) p.2

/-- The bounded retry loop `for (tries = 0; tries < FURC_MAX_TRIES; tries++)`
of `furc_hash_array`, with `t` the number of tries left; returns 0 on
exhaustion and on depth underflow, and the candidate `num` once `num < m`. -/
def furc_tries (key : List Nat) (m : Nat) : Nat → Nat → Nat → FurcState → Nat
  | 0, _, _, _ => 0
  | t + 1, d, a, s =>
      match furc_descend key d a s with
      | none => 0
      | some (d', a', s') =>
          let b := furc_build key (d' - 1) (a' + FURC_SHIFT) 1 s'
          if b.1 < m then b.1 else furc_tries key m t d' b.2.1 b.2.2

/-- `furc_hash_array(key, len, m, hash)` from hash.c: return 0 for `m ≤ 1`;
otherwise reset the cache via a `NULL`-key `furc_get_bit` call (the C
`old_ord` local is uninitialized before that call — here given a dummy value
0), compute the depth `d`, and run the retry loop starting at `a = d`. -/
def furc_hash_array (key : List Nat) (m : Nat) (cache : Nat → Nat) : Nat :=
  if m ≤ 1 then 0
  else
    let s0 := (furc_get_bit none 0 { hash := cache, old_ord := 0 }).2
    let d := furc_depth m
    furc_tries key m FURC_MAX_TRIES d d s0

/-- `furc_hash(key, len, m)` from hash.c: `furc_hash_array` on a fresh
stack-allocated scratch cache (uninitialized in C; all-zero here — its
contents are irrelevant, see `furc_hash_array_cache_irrelevant`). -/
def furc_hash (key : List Nat) (m : Nat) : Nat :=
  furc_hash_array key m (fun _ => 0)

/-! ## A cache-free, trace-recording account of the walk

`descendP`, `buildP`, `triesP` mirror the three loops of `furc_hash_array`
exactly, but read bits directly from the mathematical stream
(`furc_stream_bit`) instead of through the cache, and additionally record the
sequence of bit indices read.  `furc_tries_sim` below proves that under the
cache invariant the stateful code computes the same result. -/

def descendP (key : List Nat) : Nat → Nat → Option (Nat × Nat) × List Nat
  | 0, a =>
      if furc_stream_bit key a ≠ 0 then (some (0, a), [a]) else (none, [a])
  | 1, a =>
      if furc_stream_bit key a ≠ 0 then (some (1, a), [a]) else (none, [a])
  | d + 2, a =>
      if furc_stream_bit key a ≠ 0 then (some (d + 2, a), [a])
      else
        let p := descendP key (d + 1) (d + 1)
        (p.1, a :: p.2)

theorem descendP_unfold (key : List Nat) (d a : Nat) :
    descendP key d a =
      (if furc_stream_bit key a ≠ 0 then (some (d, a), [a])
       else if d - 1 = 0 then (none, [a])
       else
         let p := descendP key (d - 1) (d - 1)
         (p.1, a :: p.2)) := by
  match d with
  | 0 => rfl
  | 1 => rfl
  | d + 2 => rfl

def buildP (key : List Nat) : Nat → Nat → Nat → Nat × Nat × List Nat
  | 0, a, num => (num, a, [])
  | cnt + 1, a, num =>
      let p := buildP key cnt (a + FURC_SHIFT)
        ((num <<< 1 ||| furc_stream_bit key a) % 2 ^ 32)
      (p.1, p.2.1, a :: p.2.2)

def triesP (key : List Nat) (m : Nat) : Nat → Nat → Nat → Nat × List Nat
  | 0, _, _ => (0, [])
  | t + 1, d, a =>
      match descendP key d a with
      | (none, tr) => (0, tr)
      | (some (d', a'), tr) =>
          let b := buildP key (d' - 1) (a' + FURC_SHIFT) 1
          if b.1 < m then (b.1, tr ++ b.2.2)
          else
            let r := triesP key m t d' b.2.1
            (r.1, tr ++ b.2.2 ++ r.2)

/-- The whole walk of `furc_hash_array`, cache-free, with the list of all bit
indices read. -/
def furcWalk (key : List Nat) (m : Nat) : Nat × List Nat :=
  if m ≤ 1 then (0, [])
  else triesP key m FURC_MAX_TRIES (furc_depth m) (furc_depth m)

theorem furc_descend_sim (key : List Nat) :
    ∀ d a s, FurcInv key s →
      ((descendP key d a).1 = none → furc_descend key d a s = none) ∧
      (∀ d' a', (descendP key d a).1 = some (d', a') →
        ∃ s', furc_descend key d a s = some (d', a', s') ∧ FurcInv key s') := by
  intro d
  induction d using Nat.strong_induction_on with
  | _ d ih =>
    intro a s hs
    have hg := furc_get_bit_spec key a s hs
    rw [furc_descend_unfold, descendP_unfold]
    simp only [hg.1]
    by_cases hb : furc_stream_bit key a ≠ 0
    · simp only [if_pos hb]
      refine ⟨fun h => by simp at h, fun d' a' h => ?_⟩
      simp only [Option.some.injEq, Prod.mk.injEq] at h
      exact ⟨(furc_get_bit (some key) a s).2, by rw [h.1, h.2], hg.2⟩
    · simp only [if_neg hb]
      by_cases hd : d - 1 = 0
      · simp only [if_pos hd]
        exact ⟨fun _ => trivial, fun d' a' h => by simp at h⟩
      · simp only [if_neg hd]
        exact ih (d - 1) (by omega) (d - 1) _ hg.2

theorem furc_build_sim (key : List Nat) :
    ∀ cnt a num s, FurcInv key s →
      (furc_build key cnt a num s).1 = (buildP key cnt a num).1 ∧
      (furc_build key cnt a num s).2.1 = (buildP key cnt a num).2.1 ∧
      FurcInv key (furc_build key cnt a num s).2.2 := by
  intro cnt
  induction cnt with
  | zero => intro a num s hs; exact ⟨rfl, rfl, hs⟩
  | succ c ih =>
      intro a num s hs
      have hg := furc_get_bit_spec key a s hs
      simp only [furc_build, buildP, hg.1]
      exact ih _ _ _ hg.2

theorem furc_tries_sim (key : List Nat) (m : Nat) :
    ∀ t d a s, FurcInv key s →
      furc_tries key m t d a s = (triesP key m t d a).1 := by
  intro t
  induction t with
  | zero => intro d a s _; rfl
  | succ t ih =>
      intro d a s hs
      have hd := furc_descend_sim key d a s hs
      simp only [furc_tries, triesP]
      rcases hp : descendP key d a with ⟨r, tr⟩
      cases r with
      | none => rw [hd.1 (by rw [hp])]
      | some pr =>
          obtain ⟨d', a'⟩ := pr
          obtain ⟨s', hds, hinv⟩ := hd.2 d' a' (by rw [hp])
          rw [hds]
          have hb := furc_build_sim key (d' - 1) (a' + FURC_SHIFT) 1 s' hinv
          simp only [hb.1, hb.2.1, apply_ite (Prod.fst (β := List Nat))]
          split
          · rfl
          · exact ih d' _ _ hb.2.2

/-- The stateful walk equals the cache-free walk, for every initial cache. -/
theorem furc_hash_array_eq_walk (key : List Nat) (m : Nat) (cache : Nat → Nat) :
    furc_hash_array key m cache = (furcWalk key m).1 := by
  unfold furc_hash_array furcWalk
  by_cases hm : m ≤ 1
  · simp [hm]
  · simp only [if_neg hm]
    exact furc_tries_sim key m FURC_MAX_TRIES _ _ _
      (furc_reset_inv key 0 { hash := cache, old_ord := 0 })

/-- C6: `furc_hash_array` does not depend on the initial contents of the
caller-supplied scratch cache, and `furc_hash` (fresh per-call cache) agrees
with `furc_hash_array` for every initial cache state. -/
theorem furc_hash_array_cache_irrelevant (key : List Nat) (m : Nat)
    (c c' : Nat → Nat) :
    furc_hash_array key m c = furc_hash_array key m c' ∧
      furc_hash key m = furc_hash_array key m c := by
  refine ⟨?_, ?_⟩
  · rw [furc_hash_array_eq_walk, furc_hash_array_eq_walk]
  · rw [furc_hash, furc_hash_array_eq_walk, furc_hash_array_eq_walk]

theorem triesP_lt (key : List Nat) (m : Nat) (hm : 0 < m) :
    ∀ t d a, (triesP key m t d a).1 < m := by
  intro t
  induction t with
  | zero => intro d a; exact hm
  | succ t ih =>
      intro d a
      simp only [triesP]
      rcases descendP key d a with ⟨r, tr⟩
      cases r with
      | none => exact hm
      | some pr =>
          obtain ⟨d', a'⟩ := pr
          simp only
          split
          · assumption
          · exact ih d' _

/-- C1: for every key and every pool size `1 ≤ m ≤ maxPoolSize`,
`furc_hash_array` returns a bucket index in `[0, m)` (in particular 0 when
`m = 1`). -/
theorem furc_hash_array_range (key : List Nat) (m : Nat) (cache : Nat → Nat)
    (h1 : 1 ≤ m) (h2 : m ≤ furc_maximum_pool_size) :
    furc_hash_array key m cache < m := by
  rw [furc_hash_array_eq_walk]
  unfold furcWalk
  split
  · exact h1
  · exact triesP_lt key m h1 FURC_MAX_TRIES _ _

/-- Witness for C1 on a concrete key and pool size. -/
theorem furc_hash_array_range_witness :
    1 ≤ 5 ∧ 5 ≤ furc_maximum_pool_size ∧
      furc_hash_array [97, 98, 99] 5 (fun _ => 0) < 5 :=
  ⟨by decide, by decide,
    furc_hash_array_range [97, 98, 99] 5 (fun _ => 0) (by decide) (by decide)⟩

/-- C7: the walk's only failure modes return the fallback 0, which is a legal
bucket for every valid pool size: exhausting all tries (`furc_tries` with 0
tries left) returns 0, a depth underflow during a descend
(`furc_descend = none`) makes the try return 0, and `0 < m`. -/
theorem furc_walk_fallback_zero (key : List Nat) (m t d a : Nat)
    (s : FurcState) (hm : 1 < m)
    (hnone : furc_descend key d a s = none) :
    furc_tries key m 0 d a s = 0 ∧ furc_tries key m (t + 1) d a s = 0 ∧
      0 < m := by
  refine ⟨rfl, ?_, by omega⟩
  simp only [furc_tries, hnone]

/-- Witness for C7: for key "a" the stream bit at index 2 is 0, so a descend
with `d = 1` underflows and returns `none`, and the try returns 0. -/
theorem furc_walk_fallback_zero_witness :
    1 < 2 ∧
      (furc_tries [97] 2 0 1 2 ⟨fun _ => 0, -1⟩ = 0 ∧
        furc_tries [97] 2 (0 + 1) 1 2 ⟨fun _ => 0, -1⟩ = 0 ∧ 0 < 2) :=
  ⟨by decide,
    furc_walk_fallback_zero [97] 2 0 1 2 ⟨fun _ => 0, -1⟩ (by decide)
      (Option.isNone_iff_eq_none.mp (by decide))⟩

/-! ## Trace characterization of the walk's loops -/

theorem buildP_trace (key : List Nat) :
    ∀ cnt a num, (buildP key cnt a num).2.2 = List.range' a cnt FURC_SHIFT := by
  intro cnt
  induction cnt with
  | zero => intro a num; rfl
  | succ c ih =>
      intro a num
      simp only [buildP, ih, List.range'_succ]

theorem buildP_cursor (key : List Nat) :
    ∀ cnt a num, (buildP key cnt a num).2.1 = a + FURC_SHIFT * cnt := by
  intro cnt
  induction cnt with
  | zero => intro a num; simp [buildP]
  | succ c ih =>
      intro a num
      simp only [buildP, ih]
      ring

/-- Full characterization of the descend loop from `(d, a)` with `d ≥ 1`:
either the first bit is 1 (no descent: exit at `(d, a)`, one read), or it
descends to some exit depth `1 ≤ e < d` (reads at `a, d-1, d-2, ..., e`), or
it fails by underflow (reads at `a, d-1, ..., 1`). -/
theorem descendP_char (key : List Nat) :
    ∀ d a, 1 ≤ d →
      descendP key d a = (some (d, a), [a]) ∨
      (∃ e, 1 ≤ e ∧ e < d ∧
        descendP key d a = (some (e, e), a :: (List.range' e (d - e)).reverse)) ∨
      descendP key d a = (none, a :: (List.range' 1 (d - 1)).reverse) := by
  intro d
  induction d using Nat.strong_induction_on with
  | _ d ih =>
    intro a hd
    rw [descendP_unfold]
    by_cases hb : furc_stream_bit key a ≠ 0
    · left
      simp [if_pos hb]
    · by_cases hd1 : d - 1 = 0
      · right; right
        simp only [if_neg hb, if_pos hd1]
        have : d = 1 := by omega
        subst this
        rfl
      · rcases ih (d - 1) (by omega) (d - 1) (by omega) with h | ⟨e, he1, hed, h⟩ | h
        · right; left
          refine ⟨d - 1, by omega, by omega, ?_⟩
          simp only [if_neg hb, if_neg hd1, h]
          have : d - (d - 1) = 1 := by omega
          rw [this]
          rfl
        · right; left
          refine ⟨e, he1, by omega, ?_⟩
          simp only [if_neg hb, if_neg hd1, h]
          have hde : d - e = (d - 1 - e) + 1 := by omega
          rw [hde, List.range'_concat]
          simp only [List.reverse_append, List.reverse_cons, List.reverse_nil,
            List.nil_append, List.cons_append]
          have : e + 1 * (d - 1 - e) = d - 1 := by omega
          rw [this]
        · right; right
          simp only [if_neg hb, if_neg hd1, h]
          obtain ⟨k, hk⟩ : ∃ k, d - 1 = k + 1 := ⟨d - 2, by omega⟩
          rw [hk, List.range'_concat]
          simp only [List.reverse_append, List.reverse_cons, List.reverse_nil,
            List.nil_append, List.cons_append, Nat.add_sub_cancel]
          have : 1 + 1 * k = k + 1 := by omega
          rw [this]

/-- The descend loop entered at tree position `a = d` (as on the first try)
reads positions `d, d-1, d-2, ...`: its trace is `d` followed by a reversed
unit-step range. -/
theorem descendP_self_trace (key : List Nat) (d : Nat) (hd : 1 ≤ d) :
    ∃ lo, 1 ≤ lo ∧ lo ≤ d ∧
      (descendP key d d).2 = d :: (List.range' lo (d - lo)).reverse := by
  rcases descendP_char key d d hd with h | ⟨e, he1, hed, h⟩ | h
  · exact ⟨d, hd, Nat.le_refl d, by rw [h]; simp⟩
  · exact ⟨e, he1, by omega, by rw [h]⟩
  · exact ⟨1, Nat.le_refl 1, hd, by rw [h]⟩

theorem descendP_self_trace_getD (key : List Nat) (d : Nat) (hd : 1 ≤ d) :
    ∀ i, i < (descendP key d d).2.length → (descendP key d d).2.getD i 0 = d - i := by
  obtain ⟨lo, hlo1, hlod, htr⟩ := descendP_self_trace key d hd
  rw [htr]
  intro i hi
  simp only [List.length_cons, List.length_reverse, List.length_range'] at hi
  cases i with
  | zero => simp
  | succ j =>
      have hj : j < d - lo := by omega
      have hlen : (List.range' lo (d - lo)).reverse.length = d - lo := by
        simp [List.length_range']
      rw [List.getD_cons_succ, List.getD_eq_getElem _ _ (by omega),
        List.getElem_reverse, List.getElem_range']
      simp only [List.length_range']
      omega

theorem descendP_self_trace_length (key : List Nat) (d : Nat) (hd : 1 ≤ d) :
    (descendP key d d).2.length ≤ d := by
  obtain ⟨lo, hlo1, hlod, htr⟩ := descendP_self_trace key d hd
  rw [htr]
  simp only [List.length_cons, List.length_reverse, List.length_range']
  omega

theorem buildP_trace_getD (key : List Nat) (cnt a num j : Nat) (hj : j < cnt) :
    (buildP key cnt a num).2.2.getD j 0 = a + FURC_SHIFT * j := by
  rw [buildP_trace]
  rw [List.getD_eq_getElem _ _ (by simpa [List.length_range'] using hj),
    List.getElem_range']

/-- C3 counterexample: for key "a" (byte 97) and pool size 4, the walk's
descend step reads bit positions 2 then 1 — successive descend reads differ
by 1, not by `FURC_SHIFT`. -/
theorem furc_descend_stride_cex :
    (furcWalk [97] 4).2 = [2, 1] ∧ ¬((2 : Nat) = 1 + FURC_SHIFT) := by decide

/-- C3 (amended): in the descend-while-zero step entered at `a = d`,
successive bit positions decrease by exactly 1 (each is the decremented depth
counter); it is the candidate-build step whose bit positions advance by the
fixed stride `FURC_SHIFT` per read. -/
theorem furc_walk_strides (key : List Nat) (d a num cnt i j : Nat)
    (hd : 1 ≤ d) (hi : i + 1 < (descendP key d d).2.length)
    (hj : j + 1 < cnt) :
    (descendP key d d).2.getD i 0 = (descendP key d d).2.getD (i + 1) 0 + 1 ∧
      (buildP key cnt a num).2.2.getD (j + 1) 0 =
        (buildP key cnt a num).2.2.getD j 0 + FURC_SHIFT := by
  constructor
  · rw [descendP_self_trace_getD key d hd i (by omega),
      descendP_self_trace_getD key d hd (i + 1) hi]
    have hlen := descendP_self_trace_length key d hd
    omega
  · rw [buildP_trace_getD key cnt a num (j + 1) hj,
      buildP_trace_getD key cnt a num j (by omega)]
    ring

/-- Witness for C3's amended statement: for key "a" and `d = 2` the descend
trace is `[2, 1]` (length 3 > 2 fails, so use indices 0,1), and a build of 3
reads from position 30 has trace `[30, 53, 76]`. -/
theorem furc_walk_strides_witness :
    1 ≤ 2 ∧ 0 + 1 < (descendP [97] 2 2).2.length ∧ 0 + 1 < 3 ∧
      ((descendP [97] 2 2).2.getD 0 0 = (descendP [97] 2 2).2.getD (0 + 1) 0 + 1 ∧
        (buildP [97] 3 30 1).2.2.getD (0 + 1) 0 =
          (buildP [97] 3 30 1).2.2.getD 0 0 + FURC_SHIFT) :=
  ⟨by decide, by decide, by decide,
    furc_walk_strides [97] 2 30 1 3 0 0 (by decide) (by decide) (by decide)⟩

/-- Per-try trace length bound: the retry loop with `t` tries left and current
depth `d ≤ D` reads at most `t * D` bits in total. -/
theorem triesP_trace_length (key : List Nat) (m : Nat) :
    ∀ t d a D, 1 ≤ d → d ≤ D → (triesP key m t d a).2.length ≤ t * D := by
  intro t
  induction t with
  | zero => intro d a D _ _; simp [triesP]
  | succ t ih =>
      intro d a D h1 hD
      rw [Nat.succ_mul]
      simp only [triesP]
      rcases descendP_char key d a h1 with h | ⟨e, he1, hed, h⟩ | h
      · rw [h]
        dsimp only
        split
        · simp [buildP_trace, List.length_range']
          omega
        · have hrec := ih d ((buildP key (d - 1) (a + FURC_SHIFT) 1).2.1) D h1 hD
          simp [buildP_trace, List.length_range']
          omega
      · rw [h]
        dsimp only
        split
        · simp [buildP_trace, List.length_range']
          omega
        · have hrec := ih e ((buildP key (e - 1) (e + FURC_SHIFT) 1).2.1) D he1 (by omega)
          simp [buildP_trace, List.length_range']
          omega
      · rw [h]
        dsimp only
        simp [List.length_range']
        omega

/-- C8: the walk is a total function with a structural bound on bit draws:
the whole trace has length at most `FURC_MAX_TRIES * d` (`d` the initial
depth), the candidate-build loop performs exactly its `d-1` prescribed reads,
and the stateful `furc_hash_array` equals this bounded walk. -/
theorem furc_walk_terminates (key : List Nat) (m : Nat) (cache : Nat → Nat) :
    (furcWalk key m).2.length ≤ FURC_MAX_TRIES * furc_depth m ∧
      (∀ cnt a num, (buildP key cnt a num).2.2.length = cnt) ∧
      furc_hash_array key m cache = (furcWalk key m).1 := by
  refine ⟨?_, ?_, furc_hash_array_eq_walk key m cache⟩
  · unfold furcWalk
    split
    · simp
    · rename_i hm
      exact triesP_trace_length key m FURC_MAX_TRIES _ _ _
        (furc_depth_pos m (by omega)) (Nat.le_refl _)
  · intro cnt a num
    rw [buildP_trace]
    simp [List.length_range']

/-! ## Freshness of bit positions across retries (no bit index read twice) -/

/-- The freshness invariant at the entry of a retry iteration of the walk:
`d0` is the walk's initial depth, `d` the current depth, `a` the current
stream cursor and `R` the list of all bit positions read so far.  On the
first try `a = d` and nothing has been read; on later tries the cursor is in
the residue class of `d` modulo `FURC_SHIFT` and at least `FURC_SHIFT`
beyond `d`.  Every position read so far is either a "low" descend read in
`[d, d0]` or a "high" read `e + FURC_SHIFT * j` with `d ≤ e ≤ d0`, `j ≥ 1`,
and the high reads in the cursor's own residue class lie strictly below the
cursor. -/
def TryInv (d0 d a : Nat) (R : List Nat) : Prop :=
  1 ≤ d ∧ d ≤ d0 ∧ d0 ≤ FURC_SHIFT ∧
    ((a = d ∧ R = []) ∨
      (a % FURC_SHIFT = d % FURC_SHIFT ∧ FURC_SHIFT + d ≤ a)) ∧
    ∀ x ∈ R, (d ≤ x ∧ x ≤ d0) ∨
      ∃ e j, d ≤ e ∧ e ≤ d0 ∧ 1 ≤ j ∧ x = e + FURC_SHIFT * j ∧
        (e = d → x < a)

theorem furc_residue_eq (e d : Nat) (he : 1 ≤ e) (heS : e ≤ FURC_SHIFT)
    (hd : 1 ≤ d) (hdS : d ≤ FURC_SHIFT)
    (h : e % FURC_SHIFT = d % FURC_SHIFT) : e = d := by
  simp only [FURC_SHIFT] at *
  omega

/-- Under the invariant, the cursor position has not been read before. -/
theorem TryInv_cursor_fresh (d0 d a : Nat) (R : List Nat)
    (h : TryInv d0 d a R) : a ∉ R := by
  obtain ⟨hd1, hdd0, hd0S, hac, hR⟩ := h
  intro haR
  rcases hac with ⟨rfl, hRnil⟩ | ⟨hmod, hge⟩
  · simp [hRnil] at haR
  · rcases hR a haR with ⟨hl, hu⟩ | ⟨e, j, he1, he2, hj, hx, hlt⟩
    · simp only [FURC_SHIFT] at *
      omega
    · have hxmod : a % FURC_SHIFT = e % FURC_SHIFT := by
        rw [hx, Nat.add_mul_mod_self_left]
      have he : e = d := furc_residue_eq e d (by omega) (by omega) hd1
        (by omega) (by rw [← hxmod, hmod])
      have := hlt he
      omega

/-- Decomposition of the cursor: under the invariant the cursor is always
`d + FURC_SHIFT * q`, with `q = 0` exactly on the first try. -/
theorem TryInv_cursor_decomp (d0 d a : Nat) (R : List Nat)
    (h : TryInv d0 d a R) : ∃ q, a = d + FURC_SHIFT * q ∧ (q = 0 → a = d) := by
  obtain ⟨hd1, hdd0, hd0S, hac, hR⟩ := h
  rcases hac with ⟨rfl, hRnil⟩ | ⟨hmod, hge⟩
  · exact ⟨0, by omega, fun _ => rfl⟩
  · refine ⟨(a - d) / FURC_SHIFT, ?_, ?_⟩ <;>
      · simp only [FURC_SHIFT] at *
        omega

/-- Membership in the candidate-build trace started one stride after `b`. -/
theorem buildP_mem (key : List Nat) (cnt b num x : Nat) :
    x ∈ (buildP key cnt (b + FURC_SHIFT) num).2.2 ↔
      ∃ i, 1 ≤ i ∧ i ≤ cnt ∧ x = b + FURC_SHIFT * i := by
  rw [buildP_trace, List.mem_range']
  constructor
  · rintro ⟨i, hi, rfl⟩
    exact ⟨i + 1, by omega, by omega, by ring⟩
  · rintro ⟨i, h1, h2, rfl⟩
    obtain ⟨i', rfl⟩ : ∃ i', i = i' + 1 := ⟨i - 1, by omega⟩
    exact ⟨i', by omega, by ring⟩

theorem buildP_nodup (key : List Nat) (cnt a num : Nat) :
    (buildP key cnt a num).2.2.Nodup := by
  rw [buildP_trace]
  exact List.nodup_range' a cnt FURC_SHIFT (by norm_num [FURC_SHIFT])

set_option maxHeartbeats 1000000 in
theorem triesP_fresh (key : List Nat) (m d0 : Nat) :
    ∀ t d a R, TryInv d0 d a R →
      (∀ x ∈ (triesP key m t d a).2, x ∉ R) ∧ (triesP key m t d a).2.Nodup := by
  intro t
  induction t with
  | zero => intro d a R _; exact ⟨by simp [triesP], by simp [triesP]⟩
  | succ t ih =>
      intro d a R hInv
      have haR : a ∉ R := TryInv_cursor_fresh d0 d a R hInv
      obtain ⟨q, hq, hq0⟩ := TryInv_cursor_decomp d0 d a R hInv
      obtain ⟨hd1, hdd0, hd0S, hac, hR⟩ := hInv
      simp only [triesP]
      rcases descendP_char key d a hd1 with h | ⟨e, he1, hed, h⟩ | h
      · -- no descent: exit at (d, a), trace [a]
        rw [h]
        dsimp only
        -- the build trace: positions a + FURC_SHIFT * i, 1 ≤ i ≤ d - 1
        have hBmem : ∀ x ∈ (buildP key (d - 1) (a + FURC_SHIFT) 1).2.2,
            ∃ i, 1 ≤ i ∧ i ≤ d - 1 ∧ x = a + FURC_SHIFT * i := by
          intro x hx
          exact (buildP_mem key (d - 1) a 1 x).1 hx
        have hBR : ∀ x ∈ (buildP key (d - 1) (a + FURC_SHIFT) 1).2.2, x ∉ R := by
          intro x hx hxR
          obtain ⟨i, hi1, hi2, hxe⟩ := hBmem x hx
          have hiS : FURC_SHIFT ≤ FURC_SHIFT * i := Nat.le_mul_of_pos_right _ (by omega)
          rcases hR x hxR with ⟨hl, hu⟩ | ⟨e', j, he1', he2', hj, hx', hlt⟩
          · simp only [FURC_SHIFT] at *
            omega
          · have hxmod : x % FURC_SHIFT = e' % FURC_SHIFT := by
              rw [hx', Nat.add_mul_mod_self_left]
            have hxmod2 : x % FURC_SHIFT = d % FURC_SHIFT := by
              rw [hxe, hq, Nat.add_mul_mod_self_left, Nat.add_mul_mod_self_left]
            have he'd : e' = d := furc_residue_eq e' d (by omega) (by omega)
              hd1 (by omega) (by rw [← hxmod, hxmod2])
            have := hlt he'd
            omega
        have hBa : a ∉ (buildP key (d - 1) (a + FURC_SHIFT) 1).2.2 := by
          intro hx
          obtain ⟨i, hi1, hi2, hxe⟩ := hBmem a hx
          have hiS : FURC_SHIFT ≤ FURC_SHIFT * i := Nat.le_mul_of_pos_right _ (by omega)
          omega
        split
        · -- candidate accepted
          constructor
          · intro x hx
            rcases List.mem_append.1 hx with hx | hx
            · rcases List.mem_singleton.1 hx with rfl
              exact haR
            · exact hBR x hx
          · rw [List.singleton_append, List.nodup_cons]
            exact ⟨hBa, buildP_nodup key (d - 1) (a + FURC_SHIFT) 1⟩
        · -- candidate rejected: recurse with cursor a + FURC_SHIFT * d
          have hcur : (buildP key (d - 1) (a + FURC_SHIFT) 1).2.1 =
              a + FURC_SHIFT * d := by
            rw [buildP_cursor]
            obtain ⟨d', rfl⟩ : ∃ d', d = d' + 1 := ⟨d - 1, by omega⟩
            simp only [Nat.add_sub_cancel]
            ring
          rw [hcur]
          have hInv' : TryInv d0 d (a + FURC_SHIFT * d)
              (R ++ a :: (buildP key (d - 1) (a + FURC_SHIFT) 1).2.2) := by
            have hSd : FURC_SHIFT ≤ FURC_SHIFT * d := Nat.le_mul_of_pos_right _ (by omega)
            refine ⟨hd1, hdd0, hd0S, Or.inr ⟨?_, by omega⟩, ?_⟩
            · rw [Nat.add_mul_mod_self_left, hq, Nat.add_mul_mod_self_left]
            · intro x hx
              rcases List.mem_append.1 hx with hx | hx
              · rcases hR x hx with ⟨hl, hu⟩ | ⟨e', j, he1', he2', hj, hx', hlt⟩
                · exact Or.inl ⟨hl, hu⟩
                · exact Or.inr ⟨e', j, he1', he2', hj, hx', fun hde =>
                    by have := hlt hde; omega⟩
              · rcases List.mem_cons.1 hx with rfl | hx
                · by_cases hqz : q = 0
                  · exact Or.inl ⟨by omega, by rw [hq0 hqz]; omega⟩
                  · exact Or.inr ⟨d, q, by omega, by omega, by omega, hq,
                      fun _ => by omega⟩
                · obtain ⟨i, hi1, hi2, hxe⟩ := hBmem x hx
                  refine Or.inr ⟨d, q + i, by omega, by omega, by omega, ?_, ?_⟩
                  · rw [hxe, hq]; ring
                  · intro _
                    have hpos : 0 < FURC_SHIFT := by norm_num [FURC_SHIFT]
                    have : FURC_SHIFT * i < FURC_SHIFT * d :=
                      (Nat.mul_lt_mul_left hpos).2 (by omega)
                    omega
          obtain ⟨hrecR, hrecN⟩ := ih d (a + FURC_SHIFT * d) _ hInv'
          constructor
          · intro x hx
            rcases List.mem_append.1 hx with hx | hx
            · rcases List.mem_append.1 hx with hx | hx
              · rcases List.mem_singleton.1 hx with rfl
                exact haR
              · exact hBR x hx
            · intro hxR
              exact hrecR x hx (List.mem_append.2 (Or.inl hxR))
          · rw [List.append_assoc, List.singleton_append, List.nodup_cons]
            refine ⟨?_, ?_⟩
            · intro hx
              rcases List.mem_append.1 hx with hx | hx
              · exact hBa hx
              · exact hrecR a hx (List.mem_append.2 (Or.inr (List.mem_cons_self a _)))
            · refine List.Nodup.append (buildP_nodup key (d - 1) (a + FURC_SHIFT) 1)
                hrecN ?_
              intro x hx1 hx2
              exact hrecR x hx2 (List.mem_append.2 (Or.inr (List.mem_cons.2 (Or.inr hx1))))
      · -- descended to exit depth e < d: trace a :: [d-1, ..., e], then build
        rw [h]
        dsimp only
        have had : d ≤ a := by
          simp only [FURC_SHIFT] at hq
          omega
        have hrev : ∀ y ∈ (List.range' e (d - e)).reverse, e ≤ y ∧ y < d := by
          intro y hy
          rw [List.mem_reverse, List.mem_range'_1] at hy
          omega
        have hrevR : ∀ y ∈ (List.range' e (d - e)).reverse, y ∉ R := by
          intro y hy hyR
          obtain ⟨hy1, hy2⟩ := hrev y hy
          rcases hR y hyR with ⟨hl, hu⟩ | ⟨e', j, he1', he2', hj, hy', hlt⟩
          · omega
          · have hjS : FURC_SHIFT ≤ FURC_SHIFT * j :=
              Nat.le_mul_of_pos_right _ (by omega)
            simp only [FURC_SHIFT] at *
            omega
        have hBmem : ∀ x ∈ (buildP key (e - 1) (e + FURC_SHIFT) 1).2.2,
            ∃ i, 1 ≤ i ∧ i ≤ e - 1 ∧ x = e + FURC_SHIFT * i := by
          intro x hx
          exact (buildP_mem key (e - 1) e 1 x).1 hx
        have hBR : ∀ x ∈ (buildP key (e - 1) (e + FURC_SHIFT) 1).2.2, x ∉ R := by
          intro x hx hxR
          obtain ⟨i, hi1, hi2, hxe⟩ := hBmem x hx
          have hiS : FURC_SHIFT ≤ FURC_SHIFT * i :=
            Nat.le_mul_of_pos_right _ (by omega)
          rcases hR x hxR with ⟨hl, hu⟩ | ⟨e', j, he1', he2', hj, hx', hlt⟩
          · simp only [FURC_SHIFT] at *
            omega
          · have hm1 : x % FURC_SHIFT = e' % FURC_SHIFT := by
              rw [hx', Nat.add_mul_mod_self_left]
            have hm2 : x % FURC_SHIFT = e % FURC_SHIFT := by
              rw [hxe, Nat.add_mul_mod_self_left]
            have : e' = e := furc_residue_eq e' e (by omega) (by omega)
              (by omega) (by omega) (by rw [← hm1, hm2])
            omega
        have haB : a ∉ (buildP key (e - 1) (e + FURC_SHIFT) 1).2.2 := by
          intro hx
          obtain ⟨i, hi1, hi2, hxe⟩ := hBmem a hx
          have hm2 : a % FURC_SHIFT = e % FURC_SHIFT := by
            rw [hxe, Nat.add_mul_mod_self_left]
          have hm1 : a % FURC_SHIFT = d % FURC_SHIFT := by
            rw [hq, Nat.add_mul_mod_self_left]
          have : e = d := furc_residue_eq e d (by omega) (by omega)
            (by omega) (by omega) (by rw [← hm2, hm1])
          omega
        have harev : a ∉ (List.range' e (d - e)).reverse := by
          intro hy
          have := hrev a hy
          omega
        have hrevB : ∀ y ∈ (List.range' e (d - e)).reverse,
            y ∉ (buildP key (e - 1) (e + FURC_SHIFT) 1).2.2 := by
          intro y hy hyB
          obtain ⟨hy1, hy2⟩ := hrev y hy
          obtain ⟨i, hi1, hi2, hye⟩ := hBmem y hyB
          have hiS : FURC_SHIFT ≤ FURC_SHIFT * i :=
            Nat.le_mul_of_pos_right _ (by omega)
          simp only [FURC_SHIFT] at *
          omega
        have hrevN : (List.range' e (d - e)).reverse.Nodup :=
          List.nodup_reverse.2 (List.nodup_range' e (d - e))
        split
        · constructor
          · intro x hx
            rcases List.mem_append.1 hx with hx | hx
            · rcases List.mem_cons.1 hx with rfl | hx
              · exact haR
              · exact hrevR x hx
            · exact hBR x hx
          · rw [List.cons_append, List.nodup_cons]
            refine ⟨?_, List.Nodup.append hrevN
              (buildP_nodup key (e - 1) (e + FURC_SHIFT) 1) hrevB⟩
            intro hx
            rcases List.mem_append.1 hx with hx | hx
            · exact harev hx
            · exact haB hx
        · -- rejected: recurse at depth e with cursor e + FURC_SHIFT * e
          have hcur : (buildP key (e - 1) (e + FURC_SHIFT) 1).2.1 =
              e + FURC_SHIFT * e := by
            rw [buildP_cursor]
            obtain ⟨e', rfl⟩ : ∃ e'', e = e'' + 1 := ⟨e - 1, by omega⟩
            simp only [Nat.add_sub_cancel]
            ring
          rw [hcur]
          have hInv' : TryInv d0 e (e + FURC_SHIFT * e)
              (R ++ (a :: (List.range' e (d - e)).reverse ++
                (buildP key (e - 1) (e + FURC_SHIFT) 1).2.2)) := by
            have hSe : FURC_SHIFT ≤ FURC_SHIFT * e :=
              Nat.le_mul_of_pos_right _ (by omega)
            refine ⟨he1, by omega, hd0S,
              Or.inr ⟨by rw [Nat.add_mul_mod_self_left], by omega⟩, ?_⟩
            intro x hx
            rcases List.mem_append.1 hx with hx | hx
            · rcases hR x hx with ⟨hl, hu⟩ | ⟨e', j, he1', he2', hj, hx', hlt⟩
              · exact Or.inl ⟨by omega, hu⟩
              · exact Or.inr ⟨e', j, by omega, he2', hj, hx', fun hee => by omega⟩
            · rcases List.mem_append.1 hx with hx | hx
              · rcases List.mem_cons.1 hx with rfl | hx
                · by_cases hqz : q = 0
                  · refine Or.inl ⟨?_, ?_⟩ <;>
                      · rw [hq0 hqz]
                        omega
                  · exact Or.inr ⟨d, q, by omega, by omega, by omega, hq,
                      fun hde => by omega⟩
                · obtain ⟨hy1, hy2⟩ := hrev x hx
                  exact Or.inl ⟨hy1, by omega⟩
              · obtain ⟨i, hi1, hi2, hxe⟩ := hBmem x hx
                refine Or.inr ⟨e, i, by omega, by omega, by omega, hxe, ?_⟩
                intro _
                have hpos : 0 < FURC_SHIFT := by norm_num [FURC_SHIFT]
                have : FURC_SHIFT * i < FURC_SHIFT * e :=
                  (Nat.mul_lt_mul_left hpos).2 (by omega)
                omega
          obtain ⟨hrecR, hrecN⟩ := ih e (e + FURC_SHIFT * e) _ hInv'
          have hmemR' : ∀ x, x ∈ a :: (List.range' e (d - e)).reverse ++
              (buildP key (e - 1) (e + FURC_SHIFT) 1).2.2 →
              x ∈ R ++ (a :: (List.range' e (d - e)).reverse ++
                (buildP key (e - 1) (e + FURC_SHIFT) 1).2.2) := by
            intro x hx
            exact List.mem_append.2 (Or.inr hx)
          constructor
          · intro x hx
            rcases List.mem_append.1 hx with hx | hx
            · rcases List.mem_append.1 hx with hx | hx
              · rcases List.mem_cons.1 hx with rfl | hx
                · exact haR
                · exact hrevR x hx
              · exact hBR x hx
            · intro hxR
              exact hrecR x hx (List.mem_append.2 (Or.inl hxR))
          · rw [List.append_assoc, List.cons_append, List.nodup_cons]
            refine ⟨?_, ?_⟩
            · intro hx
              rcases List.mem_append.1 hx with hx | hx
              · exact harev hx
              · rcases List.mem_append.1 hx with hx | hx
                · exact haB hx
                · exact hrecR a hx (hmemR' a (List.mem_cons_self a _))
            · refine List.Nodup.append hrevN (List.Nodup.append
                (buildP_nodup key (e - 1) (e + FURC_SHIFT) 1) hrecN ?_) ?_
              · intro x hx1 hx2
                exact hrecR x hx2 (hmemR' x (List.mem_cons.2 (Or.inr
                  (List.mem_append.2 (Or.inr hx1)))))
              · intro y hy hy2
                rcases List.mem_append.1 hy2 with hy2 | hy2
                · exact hrevB y hy hy2
                · exact hrecR y hy2 (hmemR' y (List.mem_cons.2 (Or.inr
                    (List.mem_append.2 (Or.inl hy)))))
      · -- depth underflow: the try fails, trace a :: [d-1, ..., 1]
        rw [h]
        dsimp only
        have had : d ≤ a := by
          simp only [FURC_SHIFT] at hq
          omega
        have hrev : ∀ y ∈ (List.range' 1 (d - 1)).reverse, 1 ≤ y ∧ y < d := by
          intro y hy
          rw [List.mem_reverse, List.mem_range'_1] at hy
          omega
        constructor
        · intro x hx
          rcases List.mem_cons.1 hx with rfl | hx
          · exact haR
          · intro hxR
            obtain ⟨hy1, hy2⟩ := hrev x hx
            rcases hR x hxR with ⟨hl, hu⟩ | ⟨e', j, he1', he2', hj, hx', hlt⟩
            · omega
            · have hjS : FURC_SHIFT ≤ FURC_SHIFT * j :=
                Nat.le_mul_of_pos_right _ (by omega)
              simp only [FURC_SHIFT] at *
              omega
        · rw [List.nodup_cons]
          refine ⟨?_, List.nodup_reverse.2 (List.nodup_range' 1 (d - 1))⟩
          intro hy
          have := hrev a hy
          omega

/-- C5: across one whole walk no bit index of the stream is ever consumed
twice: the full trace of bit positions read by the walk (descends, candidate
builds and retries) has no duplicates, so every retry reads only
never-before-used positions. -/
theorem furc_walk_no_reuse (key : List Nat) (m : Nat)
    (hm : m ≤ 2 ^ FURC_SHIFT) : (furcWalk key m).2.Nodup := by
  unfold furcWalk
  split
  · simp
  · rename_i hm1
    have hd1 : 1 ≤ furc_depth m := furc_depth_pos m (by omega)
    have hdS : furc_depth m ≤ FURC_SHIFT := furc_depth_le m FURC_SHIFT hm
    exact (triesP_fresh key m (furc_depth m) FURC_MAX_TRIES (furc_depth m)
      (furc_depth m) [] ⟨hd1, Nat.le_refl _, hdS, Or.inl ⟨rfl, rfl⟩, by simp⟩).2

/-- Witness for C5 on a concrete key and pool size (a walk that retries:
its trace is [3, 26, 49, 72, 2, 1]). -/
theorem furc_walk_no_reuse_witness :
    5 ≤ 2 ^ FURC_SHIFT ∧ (furcWalk [97, 98, 99] 5).2.Nodup :=
  ⟨by decide, furc_walk_no_reuse [97, 98, 99] 5 (by decide)⟩
